import Mathlib

/-!
Verification of `PDF_agent.py` (DocumentLLM): a shallow embedding of the
script's own logic (metadata extraction, vector-store reset, message
assembly, the chat loop) together with spec-modelled definitions for the
algorithmic pieces the script delegates to its libraries (the MMR
retriever of the vector store, the append-only session reducer of the
chat workflow).
-/

namespace DocumentLLM

/-! ## MMR retriever

The script calls `vector_store.max_marginal_relevance_search(query, k=4,
fetch_k=5, lambda_mult=0.8)`; the selection algorithm itself lives in the
vector-store library, not in the repository.  Candidates are indices
`0 .. n-1` into the fetched pool (in fetched order); `rel i` is the
similarity of candidate `i` to the query and `sim i j` the similarity
between candidates `i` and `j`.  Similarities are rationals. -/

/-- Modelled from the spec: the highest similarity of candidate `c` to any
already-selected candidate, defined as `0` when nothing has been selected
yet (the max over the empty set is treated as no penalty). -/
def maxSimTo (sim : Nat → Nat → ℚ) (c : Nat) : List Nat → ℚ
  | [] => 0
  | s :: rest => (rest.map (sim c)).foldl max (sim c s)

/-- Modelled from the spec: the MMR objective
`lambda * relevance(c, query) - (1 - lambda) * max_similarity(c, selected)`. -/
def mmrScore (rel : Nat → ℚ) (sim : Nat → Nat → ℚ) (lam : ℚ) (sel : List Nat) (c : Nat) : ℚ :=
  lam * rel c - (1 - lam) * maxSimTo sim c sel

/-- First maximiser of `f` in a list: on ties the element occurring earlier
in the list is kept. -/
def argmaxFirst (f : Nat → ℚ) : List Nat → Option Nat
  | [] => none
  | a :: rest =>
    match argmaxFirst f rest with
    | none => some a
    | some b => if f a < f b then some b else some a

/-- Modelled from the spec: the greedy MMR loop.  At each of the `k` steps
it picks the remaining candidate maximising the MMR objective (earlier
pool position wins ties), appends it to the selection, and removes it from
the remaining pool. -/
def mmrGo (rel : Nat → ℚ) (sim : Nat → Nat → ℚ) (lam : ℚ) :
    List Nat → List Nat → Nat → List Nat
  | _, _, 0 => []
  | sel, remaining, k + 1 =>
    match argmaxFirst (mmrScore rel sim lam sel) remaining with
    | none => []
    | some c => c :: mmrGo rel sim lam (sel ++ [c]) (remaining.erase c) k

/-- Modelled from the spec: MMR selection of `k` candidates out of a pool
of `n` fetched candidates. -/
def mmrSelect (rel : Nat → ℚ) (sim : Nat → Nat → ℚ) (lam : ℚ) (k n : Nat) : List Nat :=
  mmrGo rel sim lam [] (List.range n) k

/-- The claim's characterisation of a greedy MMR run, written from the
spec's words: an output sequence (in selection order) is a greedy MMR
selection from `remaining` when it is empty once the budget `k` is `0`, it
is empty when the pool is exhausted, and otherwise its head is a remaining
candidate whose MMR score strictly beats every other remaining candidate
or ties it while sitting earlier in the fetched pool, and its tail is a
greedy selection from the pool without that head. -/
def IsGreedyMMR (rel : Nat → ℚ) (sim : Nat → Nat → ℚ) (lam : ℚ) :
    List Nat → List Nat → Nat → List Nat → Prop
  | _, _, 0, out => out = []
  | _, remaining, _ + 1, [] => remaining = []
  | sel, remaining, k + 1, c :: cs =>
    c ∈ remaining ∧
    (∀ j ∈ remaining, mmrScore rel sim lam sel j < mmrScore rel sim lam sel c ∨
      (mmrScore rel sim lam sel j = mmrScore rel sim lam sel c ∧ c ≤ j)) ∧
    IsGreedyMMR rel sim lam (sel ++ [c]) (remaining.erase c) k cs

theorem argmaxFirst_eq_none {f : Nat → ℚ} :
    ∀ {l : List Nat}, argmaxFirst f l = none ↔ l = []
  | [] => by simp [argmaxFirst]
  | a :: rest => by
    simp only [argmaxFirst]
    cases h : argmaxFirst f rest with
    | none => simp
    | some b =>
      constructor
      · intro hc
        by_cases hab : f a < f b <;> simp [hab] at hc
      · intro hc
        exact absurd hc (List.cons_ne_nil a rest)

theorem argmaxFirst_mem {f : Nat → ℚ} :
    ∀ {l : List Nat} {m : Nat}, argmaxFirst f l = some m → m ∈ l
  | [], m => by simp [argmaxFirst]
  | a :: rest, m => by
    simp only [argmaxFirst]
    cases h : argmaxFirst f rest with
    | none =>
      intro hm
      simp at hm
      simp [hm]
    | some b =>
      by_cases hab : f a < f b
      · simp only [hab, if_true]
        intro hm
        simp at hm
        subst hm
        exact List.mem_cons_of_mem a (argmaxFirst_mem h)
      · simp only [hab, if_false]
        intro hm
        simp at hm
        simp [hm]

theorem argmaxFirst_isMax {f : Nat → ℚ} :
    ∀ {l : List Nat} {m : Nat}, l.Pairwise (· ≤ ·) → argmaxFirst f l = some m →
      ∀ j ∈ l, f j < f m ∨ (f j = f m ∧ m ≤ j)
  | [], m => by simp [argmaxFirst]
  | a :: rest, m => by
    intro hp
    have hpr : rest.Pairwise (· ≤ ·) := (List.pairwise_cons.mp hp).2
    have hle : ∀ j ∈ rest, a ≤ j := (List.pairwise_cons.mp hp).1
    simp only [argmaxFirst]
    cases h : argmaxFirst f rest with
    | none =>
      intro hm
      simp at hm
      subst hm
      intro j hj
      rcases List.mem_cons.mp hj with hj | hj
      · exact Or.inr ⟨by rw [hj], by rw [hj]⟩
      · exact absurd (argmaxFirst_eq_none.mp h ▸ hj) (List.not_mem_nil j)
    | some b =>
      have ihb := argmaxFirst_isMax hpr h
      by_cases hab : f a < f b
      · simp only [hab, if_true]
        intro hm
        simp at hm
        subst hm
        intro j hj
        rcases List.mem_cons.mp hj with hj | hj
        · exact Or.inl (by rw [hj]; exact hab)
        · exact ihb j hj
      · simp only [hab, if_false]
        intro hm
        simp at hm
        subst hm
        intro j hj
        rcases List.mem_cons.mp hj with hj | hj
        · exact Or.inr ⟨by rw [hj], by rw [hj]⟩
        · rcases ihb j hj with hlt | ⟨heq, _⟩
          · exact Or.inl (lt_of_lt_of_le hlt (not_lt.mp hab))
          · rcases lt_or_eq_of_le (heq ▸ not_lt.mp hab : f j ≤ f a) with hlt | heq'
            · exact Or.inl hlt
            · exact Or.inr ⟨heq', hle j hj⟩

theorem mmrGo_isGreedy (rel : Nat → ℚ) (sim : Nat → Nat → ℚ) (lam : ℚ) :
    ∀ (k : Nat) (sel remaining : List Nat), remaining.Pairwise (· ≤ ·) →
      IsGreedyMMR rel sim lam sel remaining k (mmrGo rel sim lam sel remaining k)
  | 0, sel, remaining, _ => by simp [mmrGo, IsGreedyMMR]
  | k + 1, sel, remaining, hp => by
    rw [mmrGo]
    cases h : argmaxFirst (mmrScore rel sim lam sel) remaining with
    | none => exact (argmaxFirst_eq_none.mp h : remaining = [])
    | some c =>
      refine ⟨argmaxFirst_mem h, argmaxFirst_isMax hp h, ?_⟩
      exact mmrGo_isGreedy rel sim lam k (sel ++ [c]) (remaining.erase c)
        (hp.sublist (remaining.erase_sublist c))

/-- Claim C1: for every relevance/similarity data, budget `k`, pool size
`n` and trade-off weight `lambda`, the MMR retriever's output is built by
greedy selection: each step picks the remaining candidate maximising
`lambda * relevance − (1 − lambda) * max_similarity(·, selected)` (with
`max_similarity` over the empty selection equal to `0`), ties go to the
candidate earlier in the fetched pool, and the output lists the picks in
selection order. -/
theorem mmrSelect_isGreedy (rel : Nat → ℚ) (sim : Nat → Nat → ℚ) (lam : ℚ) (k n : Nat) :
    IsGreedyMMR rel sim lam [] (List.range n) k (mmrSelect rel sim lam k n) :=
  mmrGo_isGreedy rel sim lam k [] (List.range n)
    ((List.pairwise_lt_range n).imp le_of_lt)

/-- Pure relevance ranking of the pool: repeatedly take the remaining
candidate with the highest similarity to the query, earlier pool position
winning ties (a stable descending ranking), up to `k` picks. -/
def relRankGo (rel : Nat → ℚ) : List Nat → Nat → List Nat
  | _, 0 => []
  | remaining, k + 1 =>
    match argmaxFirst rel remaining with
    | none => []
    | some c => c :: relRankGo rel (remaining.erase c) k

/-- Pure relevance ranking of the `n`-candidate pool, truncated to `k`. -/
def relevanceRanking (rel : Nat → ℚ) (k n : Nat) : List Nat :=
  relRankGo rel (List.range n) k

theorem mmrScore_lambda_one (rel : Nat → ℚ) (sim : Nat → Nat → ℚ) (sel : List Nat) :
    mmrScore rel sim 1 sel = rel := by
  funext c
  simp [mmrScore]

theorem mmrGo_lambda_one (rel : Nat → ℚ) (sim : Nat → Nat → ℚ) :
    ∀ (k : Nat) (sel remaining : List Nat),
      mmrGo rel sim 1 sel remaining k = relRankGo rel remaining k
  | 0, sel, remaining => by simp [mmrGo, relRankGo]
  | k + 1, sel, remaining => by
    rw [mmrGo, relRankGo, mmrScore_lambda_one]
    cases h : argmaxFirst rel remaining with
    | none => rfl
    | some c => simp [mmrGo_lambda_one rel sim k (sel ++ [c]) (remaining.erase c)]

/-- Claim C2: with `lambda = 1` the MMR retriever returns the candidates in
exactly the order of a pure relevance (similarity-to-query) ranking of the
pool. -/
theorem mmrSelect_lambda_one (rel : Nat → ℚ) (sim : Nat → Nat → ℚ) (k n : Nat) :
    mmrSelect rel sim 1 k n = relevanceRanking rel k n :=
  mmrGo_lambda_one rel sim k [] (List.range n)

/-! ## Conversation manager

Embedding of `create_augmented_response` (lines 106-128) and the turn
mechanics of `chat_with_memory`.  The external model call is a parameter
`invoke`, retrieval a parameter `retrieve`. -/

/-- A retrieved document chunk, as used by the script (`doc.page_content`). -/
structure Doc where
  pageContent : String
deriving DecidableEq

/-- A chat message: the three roles the script uses. -/
inductive Message where
  | system (content : String)
  | user (content : String)
  | ai (content : String)
deriving DecidableEq

def Message.content : Message → String
  | .system c => c
  | .user c => c
  | .ai c => c

def Message.isSystem : Message → Bool
  | .system _ => true
  | _ => false

/-- Line 106: `state["messages"][-1].content if state["messages"] else ""`. -/
def latestMsgContent (hist : List Message) : String :=
  match hist.getLast? with
  | some m => m.content
  | none => ""

/-- Line 115: `" ".join([doc.page_content for doc in results])`. -/
def contextOf (results : List Doc) : String :=
  String.intercalate " " (results.map Doc.pageContent)

/-- Lines 119-123: the content of the system message, with the retrieved
context interpolated at the end. -/
def systemPromptContent (context : String) : String :=
  "You are a helpful assistant. Use both the conversation history " ++
    "and the provided context to give accurate answers. " ++
    "Context: " ++ context

/-- Lines 106-124: the message list `create_augmented_response` sends to
the model: one system message built from the context retrieved for the
latest message, followed by the whole conversation state. -/
def modelInput (retrieve : String → List Doc) (hist : List Message) : List Message :=
  Message.system (systemPromptContent (contextOf (retrieve (latestMsgContent hist)))) :: hist

/-- Modelled from the spec: one conversation turn.  The session reducer
(the chat workflow's message state, which is library code, not in the
repository) appends the incoming user message to the history; the model
reply produced by `create_augmented_response` is then appended as an
assistant message, and the reply text is returned (`chat_with_memory`,
lines 144-151). -/
def runTurn (retrieve : String → List Doc) (invoke : List Message → String)
    (hist : List Message) (q : String) : List Message × String :=
  let hist1 := hist ++ [Message.user q]
  let reply := invoke (modelInput retrieve hist1)
  (hist1 ++ [Message.ai reply], reply)

/-- Sequential turns over one session, starting from history `hist`. -/
def runTurns (retrieve : String → List Doc) (invoke : List Message → String)
    (hist : List Message) : List String → List Message
  | [] => hist
  | q :: qs => runTurns retrieve invoke (runTurn retrieve invoke hist q).1 qs

/-- Checks that a history is a user message, then an assistant message,
repeated. -/
def alternatesUserAi : List Message → Bool
  | [] => true
  | Message.user _ :: Message.ai _ :: rest => alternatesUserAi rest
  | _ => false

/-- The user-message contents of a history, in order. -/
def userContents : List Message → List String :=
  List.filterMap fun m => match m with
    | Message.user c => some c
    | _ => none

theorem latestMsgContent_concat (hist : List Message) (m : Message) :
    latestMsgContent (hist ++ [m]) = m.content := by
  simp [latestMsgContent]

/-- Claim C3: the model is invoked with exactly one system message followed
by the full prior history including the just-appended user message, and the
system message embeds the retrieved passages' text (retrieved with the new
user message as query) verbatim, space-joined, in retrieval order. -/
theorem modelInput_structure (retrieve : String → List Doc)
    (hist : List Message) (q : String)
    (hSys : ∀ m ∈ hist, m.isSystem = false) :
    modelInput retrieve (hist ++ [Message.user q]) =
      Message.system (systemPromptContent
        (String.intercalate " " ((retrieve q).map Doc.pageContent))) ::
        (hist ++ [Message.user q]) ∧
    ((modelInput retrieve (hist ++ [Message.user q])).filter Message.isSystem).length = 1 := by
  have hq : latestMsgContent (hist ++ [Message.user q]) = q :=
    latestMsgContent_concat hist (Message.user q)
  constructor
  · simp [modelInput, hq, contextOf]
  · simp only [modelInput, List.filter_cons, List.filter_append]
    have h1 : hist.filter Message.isSystem = [] := by
      rw [List.filter_eq_nil_iff]
      intro m hm
      simp [hSys m hm]
    simp [h1, Message.isSystem]

/-- Witness for C3 at a concrete two-message history and retriever. -/
theorem modelInput_structure_witness :
    modelInput (fun _ => [Doc.mk "p1", Doc.mk "p2"])
        ([Message.user "hi", Message.ai "ok"] ++ [Message.user "who"]) =
      Message.system (systemPromptContent
        (String.intercalate " " (([Doc.mk "p1", Doc.mk "p2"]).map Doc.pageContent))) ::
        ([Message.user "hi", Message.ai "ok"] ++ [Message.user "who"]) ∧
    ((modelInput (fun _ => [Doc.mk "p1", Doc.mk "p2"])
        ([Message.user "hi", Message.ai "ok"] ++ [Message.user "who"])).filter
        Message.isSystem).length = 1 :=
  modelInput_structure (fun _ => [Doc.mk "p1", Doc.mk "p2"])
    [Message.user "hi", Message.ai "ok"] "who" (by decide)

theorem alternates_append_pair :
    ∀ (l : List Message) (q r : String),
      alternatesUserAi (l ++ [Message.user q, Message.ai r]) = alternatesUserAi l
  | [], q, r => rfl
  | [m], q, r => by cases m <;> rfl
  | a :: b :: rest, q, r => by
    cases a <;> cases b <;>
      simp only [List.cons_append, alternatesUserAi, List.append_eq,
        alternates_append_pair rest q r]

theorem runTurn_fst (retrieve : String → List Doc) (invoke : List Message → String)
    (hist : List Message) (q : String) :
    (runTurn retrieve invoke hist q).1 =
      hist ++ [Message.user q, Message.ai (runTurn retrieve invoke hist q).2] := by
  simp [runTurn]

theorem runTurns_length (retrieve : String → List Doc) (invoke : List Message → String) :
    ∀ (qs : List String) (hist : List Message),
      (runTurns retrieve invoke hist qs).length = hist.length + 2 * qs.length
  | [], hist => by simp [runTurns]
  | q :: qs, hist => by
    rw [runTurns, runTurns_length retrieve invoke qs, runTurn_fst]
    simp
    ring

theorem runTurns_alternates (retrieve : String → List Doc) (invoke : List Message → String) :
    ∀ (qs : List String) (hist : List Message), alternatesUserAi hist = true →
      alternatesUserAi (runTurns retrieve invoke hist qs) = true
  | [], hist, h => h
  | q :: qs, hist, h => by
    rw [runTurns]
    exact runTurns_alternates retrieve invoke qs _
      (by rw [runTurn_fst, alternates_append_pair]; exact h)

theorem runTurns_users (retrieve : String → List Doc) (invoke : List Message → String) :
    ∀ (qs : List String) (hist : List Message),
      userContents (runTurns retrieve invoke hist qs) = userContents hist ++ qs
  | [], hist => by simp [runTurns]
  | q :: qs, hist => by
    rw [runTurns, runTurns_users retrieve invoke qs, runTurn_fst]
    simp [userContents]

/-- Claim C4: starting from an empty session, N sequential turns leave a
history of exactly 2N messages, alternating user then assistant, whose
user messages are the submitted questions in call order; each turn only
grows the history by appending the user/assistant pair. -/
theorem session_history_invariant (retrieve : String → List Doc)
    (invoke : List Message → String) (qs : List String) :
    (runTurns retrieve invoke [] qs).length = 2 * qs.length ∧
    alternatesUserAi (runTurns retrieve invoke [] qs) = true ∧
    userContents (runTurns retrieve invoke [] qs) = qs ∧
    ∀ (hist : List Message) (q : String), (runTurn retrieve invoke hist q).1 =
      hist ++ [Message.user q, Message.ai (runTurn retrieve invoke hist q).2] :=
  ⟨by simpa using runTurns_length retrieve invoke qs [],
   runTurns_alternates retrieve invoke qs [] rfl,
   by simpa [userContents] using runTurns_users retrieve invoke qs [],
   runTurn_fst retrieve invoke⟩

/-- Claim C10: with an empty conversation state, the response generator
does not fail on the missing last element: the retrieval query is the
empty string and the system message plus (empty) history is still built. -/
theorem empty_state_uses_empty_query (retrieve : String → List Doc) :
    latestMsgContent [] = "" ∧
    modelInput retrieve [] =
      [Message.system (systemPromptContent (contextOf (retrieve "")))] :=
  ⟨rfl, rfl⟩

/-! ## Metadata extraction

Embedding of `extract_metadata` (lines 25-50).  Reply text is a list of
characters; `json.loads` together with the shape of the parsed object is a
parameter `jsonParse`.  Notably, the `model.invoke` call (line 38) sits
before the `try` block (line 40), so only the clean-up and parse are
guarded. -/

abbrev Chars := List Char

/-- Characters Python's `str.strip()` removes. -/
def isPySpace (c : Char) : Bool :=
  c = ' ' || c = '\t' || c = '\n' || c = '\r' || c = '\x0B' || c = '\x0C'

/-- Python `str.strip()`: remove leading and trailing whitespace. -/
def pyStrip (s : Chars) : Chars :=
  ((s.dropWhile isPySpace).reverse.dropWhile isPySpace).reverse

/-- Python `s.startswith(p)`: `beginsWith p s` is true when `s` starts with `p`. -/
def beginsWith : Chars → Chars → Bool
  | [], _ => true
  | _ :: _, [] => false
  | p :: ps, c :: cs => p = c && beginsWith ps cs

/-- Python `s.endswith(p)`: true when `s` ends with `p`. -/
def finishesWith (p s : Chars) : Bool :=
  beginsWith p.reverse s.reverse

/-- Python `s[3:-3]`. -/
def sliceOffEnds (s : Chars) : Chars :=
  (s.drop 3).take (s.length - 6)

/-- The triple-backtick code-fence marker. -/
def fence : Chars := "```".toList

/-- Lines 43-45: strip the reply, and if it both starts and ends with a
triple-backtick fence, cut three characters off each end and strip again. -/
def cleanupResponse (content : Chars) : Chars :=
  let t := pyStrip content
  if beginsWith fence t && finishesWith fence t then pyStrip (sliceOffEnds t) else t

/-- The structured object the extractor is after. -/
structure Metadata where
  date : Option Chars
  author : Option Chars
deriving DecidableEq

/-- Lines 38-50: the model call happens before the `try` block, so its
failure propagates out as `.error`; inside the `try` the reply is cleaned
up and parsed, and any parse failure is caught, reported (the boolean
flag records that the error message was printed) and replaced by null
fields. -/
def extractMetadata (jsonParse : Chars → Option Metadata)
    (invokeResult : Except String Chars) : Except String (Metadata × Bool) :=
  match invokeResult with
  | .error e => .error e
  | .ok content =>
    match jsonParse (cleanupResponse content) with
    | some m => .ok (m, false)
    | none => .ok (Metadata.mk none none, true)

/-- Lines 181-182: Python `value or 'Not found'` — `None` (and the empty
string, also falsy) is displayed as `Not found`. -/
def displayField : Option Chars → Chars
  | none => "Not found".toList
  | some s => if s = [] then "Not found".toList else s

/-- Claim C5: whenever the cleaned-up model reply fails to parse, the
extractor returns null date and author fields and reports the failure,
returning normally to its caller instead of raising. -/
theorem parse_failure_returns_nulls (jsonParse : Chars → Option Metadata) (content : Chars)
    (h : jsonParse (cleanupResponse content) = none) :
    extractMetadata jsonParse (.ok content) = .ok (Metadata.mk none none, true) := by
  simp [extractMetadata, h]

/-- Witness for C5 on a reply no parser accepts. -/
theorem parse_failure_returns_nulls_witness :
    extractMetadata (fun _ => none) (.ok "not json".toList) =
      .ok (Metadata.mk none none, true) :=
  parse_failure_returns_nulls (fun _ => none) "not json".toList rfl

/-- Counterexample to claim C6 as stated: a failure of the language-model
call itself is not recovered inside the extraction step — `model.invoke`
sits before the `try` block, so the error propagates out of
`extract_metadata` instead of surfacing as the null ("Not found") fields. -/
theorem model_error_not_recovered :
    extractMetadata (fun _ => none) (.error "APIError") = .error "APIError" ∧
    (Except.error "APIError" : Except String (Metadata × Bool)) ≠
      .ok (Metadata.mk none none, true) :=
  ⟨rfl, by simp⟩

/-- Claim C6 amended: once the model call has succeeded, no error escapes
the extraction step (it always returns normally, with a parse failure
surfacing as null fields displayed `Not found`); a failure of the model
call itself, however, propagates out of the extraction step. -/
theorem metadata_error_containment (jsonParse : Chars → Option Metadata)
    (content : Chars) (e : String) :
    (∃ mb, extractMetadata jsonParse (.ok content) = .ok mb) ∧
    displayField none = "Not found".toList ∧
    extractMetadata jsonParse (.error e) = .error e := by
  refine ⟨?_, rfl, rfl⟩
  cases h : jsonParse (cleanupResponse content) with
  | some m => exact ⟨(m, false), by simp [extractMetadata, h]⟩
  | none => exact ⟨(Metadata.mk none none, true), by simp [extractMetadata, h]⟩

/-- Claim C7: a reply wrapped in triple-backtick fence markers whose
enclosed content parses is stripped of the fences before parsing, so the
enclosed fields are returned and the fence never causes the null
fallback. -/
theorem fenced_reply_parses (jsonParse : Chars → Option Metadata) (content : Chars)
    (m : Metadata)
    (h1 : beginsWith fence (pyStrip content) = true)
    (h2 : finishesWith fence (pyStrip content) = true)
    (h3 : jsonParse (pyStrip (sliceOffEnds (pyStrip content))) = some m) :
    extractMetadata jsonParse (.ok content) = .ok (m, false) := by
  have hc : cleanupResponse content = pyStrip (sliceOffEnds (pyStrip content)) := by
    simp [cleanupResponse, h1, h2]
  simp [extractMetadata, hc, h3]

/-- Witness for C7 on a fenced reply whose interior a concrete parser
accepts. -/
theorem fenced_reply_parses_witness :
    extractMetadata
      (fun s => if s = "abc".toList then some (Metadata.mk (some "2020".toList) none) else none)
      (.ok "```abc```".toList) = .ok (Metadata.mk (some "2020".toList) none, false) :=
  fenced_reply_parses _ _ _ (by decide) (by decide) (by decide)

/-! ## Vector-store reset -/

/-- The filesystem as `reset_vector_store` sees it: each directory path
either holds a list of records or is absent. -/
def FileSys := String → Option (List String)

/-- Lines 17-23: if the directory exists it is removed wholesale
(`shutil.rmtree`) and a reset message is printed; otherwise only a
not-found message is printed.  Returns the new filesystem and the printed
line. -/
def reset_vector_store (fs : FileSys) (dir : String) : FileSys × String :=
  if (fs dir).isSome then
    (fun q => if q = dir then none else fs q,
      "Vector store at '" ++ dir ++ "' has been reset.")
  else
    (fs, "No existing vector store found at '" ++ dir ++ "'.")

theorem reset_vector_store_clears (fs : FileSys) (dir : String) :
    (reset_vector_store fs dir).1 dir = none := by
  by_cases h : (fs dir).isSome
  · simp [reset_vector_store, h]
  · simp only [reset_vector_store, h, if_false]
    exact Option.not_isSome_iff_eq_none.mp h

theorem reset_vector_store_absent (fs : FileSys) (dir : String) (h : fs dir = none) :
    reset_vector_store fs dir =
      (fs, "No existing vector store found at '" ++ dir ++ "'.") := by
  simp [reset_vector_store, h]

/-- Claim C8: reset deletes every record at the storage location, and on
an absent location it completes normally as a no-op (the state is
returned unchanged, with the not-found message) — in particular the second
of two consecutive resets hits an absent location, so resetting twice
leaves exactly the state of resetting once. -/
theorem reset_vector_store_idempotent (fs : FileSys) (dir : String) :
    (reset_vector_store fs dir).1 dir = none ∧
    reset_vector_store (reset_vector_store fs dir).1 dir =
      ((reset_vector_store fs dir).1,
        "No existing vector store found at '" ++ dir ++ "'.") := by
  exact ⟨reset_vector_store_clears fs dir,
    reset_vector_store_absent _ dir (reset_vector_store_clears fs dir)⟩

/-! ## Interactive loop -/

/-- Python `str.lower` as far as the `'exit'` comparison needs it: ASCII
capitals are lowered, every other character is kept. -/
def pyLower (s : Chars) : Chars :=
  s.map fun c => if 'A' ≤ c ∧ c ≤ 'Z' then Char.ofNat (c.toNat + 32) else c

/-- The literal quit token of line 192. -/
def exitToken : Chars := "exit".toList

/-- Lines 190-196: the chat loop over a finite list of input lines: a line
lowering to `exit` breaks out of the loop; any other line is answered and
the loop continues.  Returns the assistant responses printed, in order. -/
def chatLoop (answer : Chars → Chars) : List Chars → List Chars
  | [] => []
  | q :: rest =>
    if pyLower q = exitToken then []
    else answer q :: chatLoop answer rest

/-- Claim C9: the loop answers exactly the inputs before the first line
that case-insensitively equals `exit`, in order, and stops there — an
`exit` line (in any capitalisation) terminates it, every other line is
answered and the loop continues. -/
theorem chatLoop_answers_until_exit (answer : Chars → Chars) (inputs : List Chars) :
    chatLoop answer inputs =
      (inputs.takeWhile fun q => !(pyLower q == exitToken)).map answer := by
  induction inputs with
  | nil => rfl
  | cons q rest ih =>
    by_cases h : pyLower q = exitToken
    · simp [chatLoop, List.takeWhile_cons, h]
    · simp [chatLoop, List.takeWhile_cons, h, ih]

end DocumentLLM
